import Mathlib

/-!
# ThreadPool.hpp: a model of the worker pool and its lifecycle

The class `ThreadPool` of `src/ThreadPool.hpp` is embedded as a state record with
one function per member function. Threads are modelled by interleaving: each worker
is at one of three program points of `threadFunction`, and a schedule is a list of
worker events. Everything the mutex protects is done in one atomic event, exactly as
the critical sections of the source delimit it.

`m_condition.wait(lock, pred)` returns with the lock held and `pred` true, and every
change that can make `pred` true is followed by a notification, so a waiting worker
may pass its critical section exactly in the states where `pred` holds. `join`
returns once the thread has returned from `threadFunction`.

Platform assumptions: `unsigned int` has 32 bits (the type of the loop counter
`auto i = 0u` in `init`), `size_t` has 64. Thread creation and memory are assumed not
to run out. Tasks do not call back into the pool. `stop` and `softStop` take the
schedule of the worker threads during the call; `softStopAmid` takes the actions of
all other threads, submissions included.
-/

namespace ThreadPoolModel

/-- Number of values of an `unsigned int`, the type of `i` in `init`. -/
def UINT_MOD : Nat := 4294967296

/-- The closure stored in `m_queue` by `enqueue`: `[tsk]() { (*tsk)(); }` around a
`std::packaged_task`. `state` names the shared state of the packaged task (the one
its future reads), `bound` is `std::bind(t, args...)`: calling it yields a value or
raises. -/
structure Task (ε ρ : Type) where
  state : Nat
  bound : Unit → Except ε ρ

/-- Program point of one `std::thread` of `m_threads` inside `threadFunction`. -/
inductive Thread (ε ρ : Type) where
  /-- At the top of the loop: about to lock and wait (lines 157-158). -/
  | waiting : Thread ε ρ
  /-- Left the critical section with `task` popped, `task()` (line 166) pending. -/
  | running (task : Task ε ρ) : Thread ε ρ
  /-- Returned from `threadFunction` (line 161). -/
  | finished : Thread ε ρ

/-- The members of `ThreadPool` plus the environment the claims talk about:
`shared` are the shared states of all packaged tasks created so far (`none` = not
ready), `submitted` and `executed` are history variables recording the closures in
the order `enqueue` created them and in the order `task()` was called. -/
structure ThreadPool (ε ρ : Type) where
  m_numthreads : Nat
  m_threads : List (Thread ε ρ)
  m_queue : List (Task ε ρ)
  m_stopflag : Bool
  m_stopflag_soft : Bool
  shared : List (Option (Except ε ρ))
  submitted : List (Task ε ρ)
  executed : List (Task ε ρ)

variable {ε ρ : Type}

/-- The task a thread holds outside the lock, if any. -/
def Thread.task? : Thread ε ρ → Option (Task ε ρ)
  | .running task => some task
  | _ => none

/-- Has the thread returned from `threadFunction` (so that `join` returns)? -/
def Thread.isFinished : Thread ε ρ → Bool
  | .finished => true
  | _ => false

/-- Tasks dequeued but not yet executed, in thread order. -/
def held (threads : List (Thread ε ρ)) : List (Task ε ρ) :=
  threads.filterMap Thread.task?

/-- The loop of `init` (lines 85-88): `i` is an `unsigned int`, so `i++` wraps at
`UINT_MOD`; `numthreads` is a `size_t`. One unit of fuel per evaluation of the loop
condition; `none` when the fuel runs out. -/
def spawn : Nat → Nat → Nat → List (Thread ε ρ) → Option (List (Thread ε ρ))
  | 0, _, _, _ => none
  | fuel + 1, i, numthreads, threads =>
    if i < numthreads then
      spawn fuel ((i + 1) % UINT_MOD) numthreads (threads ++ [Thread.waiting])
    else some threads

/-- `bool init(size_t numthreads)` (lines 74-90). -/
def init (fuel numthreads : Nat) (p : ThreadPool ε ρ) : Option (Bool × ThreadPool ε ρ) :=
  if p.m_threads.length ≠ 0 then some (false, p)
  else
    match spawn fuel 0 numthreads p.m_threads with
    | none => none
    | some threads =>
      some (true, { p with
        m_stopflag := false
        m_stopflag_soft := false
        m_numthreads := numthreads
        m_threads := threads })

/-- The object before the constructor body runs (lines 55-56). -/
def fresh (numthreads : Nat) : ThreadPool ε ρ :=
  { m_numthreads := numthreads, m_threads := [], m_queue := [],
    m_stopflag := false, m_stopflag_soft := false,
    shared := [], submitted := [], executed := [] }

/-- `ThreadPool(size_t numthreads)` (lines 55-59). -/
def ctor (fuel numthreads : Nat) : Option (ThreadPool ε ρ) :=
  (init fuel numthreads (fresh numthreads)).map Prod.snd

/-- `numThreads()` (lines 145-148). -/
def numThreads (p : ThreadPool ε ρ) : Nat := p.m_numthreads

/-- `enqueue(t, args...)` (lines 127-139): a fresh packaged task around
`std::bind(t, args...)`, its closure emplaced at the back of the queue; returns the
future, named by the index of its shared state. Neither `t` nor the closure is called. -/
def enqueue {α : Type} (p : ThreadPool ε ρ) (t : α → Except ε ρ) (args : α) :
    ThreadPool ε ρ × Nat :=
  let task : Task ε ρ := { state := p.shared.length, bound := fun _ => t args }
  let future := task.state
  ({ p with
      shared := p.shared ++ [none]
      m_queue := p.m_queue ++ [task]
      submitted := p.submitted ++ [task] }, future)

/-- Reading a future: `none` while the shared state is not ready (`get` would block). -/
def futureGet (p : ThreadPool ε ρ) (future : Nat) : Option (Except ε ρ) :=
  p.shared.getD future none

/-- The critical section of `stop` (lines 98-101). -/
def stop_lock (p : ThreadPool ε ρ) : ThreadPool ε ρ :=
  { p with m_stopflag := true }

/-- The critical section of `softStop` (lines 112-115). -/
def softStop_lock (p : ThreadPool ε ρ) : ThreadPool ε ρ :=
  { p with m_stopflag_soft := true }

/-- `clearThreads` (lines 170-180): `join` returns only for a finished thread, so
the function returns only once every thread has finished; `none` while it blocks. -/
def clearThreads (p : ThreadPool ε ρ) : Option (ThreadPool ε ρ) :=
  if p.m_threads.all Thread.isFinished then some { p with m_threads := [] } else none

/-- The predicate of `m_condition.wait` (line 158). -/
def wakePredicate (p : ThreadPool ε ρ) : Bool :=
  p.m_stopflag_soft || p.m_stopflag || !p.m_queue.isEmpty

/-- The condition of the `if` at line 159. -/
def exitCondition (p : ThreadPool ε ρ) : Bool :=
  (p.m_stopflag_soft && p.m_queue.isEmpty) || p.m_stopflag

/-- `m_queue.front()`: undefined (`none`) on an empty queue. -/
def front (queue : List (Task ε ρ)) : Option (Task ε ρ) := queue.head?

/-- `m_queue.pop()`: undefined (`none`) on an empty queue. -/
def pop : List (Task ε ρ) → Option (List (Task ε ρ))
  | [] => none
  | _ :: rest => some rest

/-- The critical section of `threadFunction` for thread `i` (lines 157-165): enabled
when the thread is at the top of its loop and the wait predicate holds. `none` when
the thread is elsewhere, still blocked, or `front`/`pop` is undefined. -/
def threadFunction_lock (i : Nat) (p : ThreadPool ε ρ) : Option (ThreadPool ε ρ) :=
  match p.m_threads[i]? with
  | some Thread.waiting =>
    if wakePredicate p then
      if exitCondition p then
        some { p with m_threads := p.m_threads.set i Thread.finished }
      else
        match front p.m_queue, pop p.m_queue with
        | some task, some rest =>
          some { p with m_queue := rest, m_threads := p.m_threads.set i (Thread.running task) }
        | _, _ => none
    else none
  | _ => none

/-- Invoking the closure: `packaged_task::operator()` calls the bound callable and
stores its value or its exception in the shared state; nothing escapes. -/
def Task.invoke (task : Task ε ρ) (shared : List (Option (Except ε ρ))) :
    List (Option (Except ε ρ)) :=
  shared.set task.state (some (task.bound ()))

/-- `task();` (line 166) for thread `i`, then back to the top of the loop. -/
def threadFunction_task (i : Nat) (p : ThreadPool ε ρ) : Option (ThreadPool ε ρ) :=
  match p.m_threads[i]? with
  | some (Thread.running task) =>
    some { p with
      shared := task.invoke p.shared
      executed := p.executed ++ [task]
      m_threads := p.m_threads.set i Thread.waiting }
  | _ => none

/-- One scheduling event of a worker thread. -/
inductive Event where
  /-- Thread `i` passes its critical section. -/
  | lock (i : Nat) : Event
  /-- Thread `i` runs the task it holds. -/
  | task (i : Nat) : Event
  deriving DecidableEq, Repr

/-- One event of `threadFunction`. -/
def threadFunction : Event → ThreadPool ε ρ → Option (ThreadPool ε ρ)
  | .lock i, p => threadFunction_lock i p
  | .task i, p => threadFunction_task i p

/-- The worker threads running along a schedule; `none` if an event is not enabled. -/
def workers : List Event → ThreadPool ε ρ → Option (ThreadPool ε ρ)
  | [], p => some p
  | e :: sched, p => (threadFunction e p).bind (workers sched)

/-- `stop()` (lines 96-104) with the workers interleaved along `sched` between the
critical section and the return of `clearThreads`. -/
def stop (sched : List Event) (p : ThreadPool ε ρ) : Option (ThreadPool ε ρ) :=
  (workers sched (stop_lock p)).bind clearThreads

/-- `softStop()` (lines 110-118), likewise. -/
def softStop (sched : List Event) (p : ThreadPool ε ρ) : Option (ThreadPool ε ρ) :=
  (workers sched (softStop_lock p)).bind clearThreads

/-- The destructor (lines 64-67). -/
def dtor (sched : List Event) (p : ThreadPool ε ρ) : Option (ThreadPool ε ρ) :=
  softStop sched p

/-- One atomic action of the whole system: a caller entering a member function, the
caller's `clearThreads` returning, or a worker event. -/
inductive Action (ε ρ : Type) where
  | enqueue (bound : Unit → Except ε ρ) : Action ε ρ
  | init (fuel numthreads : Nat) : Action ε ρ
  | stop_lock : Action ε ρ
  | softStop_lock : Action ε ρ
  | clearThreads : Action ε ρ
  | worker (e : Event) : Action ε ρ

/-- The step function of the system. -/
def step : Action ε ρ → ThreadPool ε ρ → Option (ThreadPool ε ρ)
  | .enqueue bound, p => some (enqueue p bound ()).1
  | .init fuel numthreads, p => (init fuel numthreads p).map Prod.snd
  | .stop_lock, p => some (stop_lock p)
  | .softStop_lock, p => some (softStop_lock p)
  | .clearThreads, p => clearThreads p
  | .worker e, p => threadFunction e p

/-- A run of the system along a list of actions. -/
def run : List (Action ε ρ) → ThreadPool ε ρ → Option (ThreadPool ε ρ)
  | [], p => some p
  | a :: rest, p => (step a p).bind (run rest)

/-- States reachable from a constructed pool. -/
def Reachable (p : ThreadPool ε ρ) : Prop :=
  ∃ fuel numthreads actions, (ctor fuel numthreads).bind (run actions) = some p

/-- Events a thread still performs before it can finish once the queue is empty. -/
def Thread.weight : Thread ε ρ → Nat
  | .waiting => 1
  | .running _ => 2
  | .finished => 0

/-- Total weight of the threads. -/
def load (threads : List (Thread ε ρ)) : Nat := (threads.map Thread.weight).sum

/-- Number of worker events left when every queued task is dequeued and run. -/
def workLeft (p : ThreadPool ε ρ) : Nat := 2 * p.m_queue.length + load p.m_threads

/-- Tasks accepted but not yet executed: those held by workers, then the queue. -/
def pending (p : ThreadPool ε ρ) : List (Task ε ρ) := held p.m_threads ++ p.m_queue

/-- Is some thread of the collection still inside `threadFunction`? -/
def someRunning (p : ThreadPool ε ρ) : Bool := p.m_threads.any (fun t => !t.isFinished)

/-- Effect of one worker event, with the thread list split at the acting thread. -/
inductive Effect : ThreadPool ε ρ → ThreadPool ε ρ → Prop where
  | exit (p : ThreadPool ε ρ) (l r : List (Thread ε ρ)) :
      p.m_threads = l ++ Thread.waiting :: r → wakePredicate p = true →
      exitCondition p = true →
      Effect p { p with m_threads := l ++ Thread.finished :: r }
  | dequeue (p : ThreadPool ε ρ) (l r : List (Thread ε ρ)) (task : Task ε ρ)
      (rest : List (Task ε ρ)) :
      p.m_threads = l ++ Thread.waiting :: r → wakePredicate p = true →
      exitCondition p = false → p.m_queue = task :: rest →
      Effect p { p with m_queue := rest, m_threads := l ++ Thread.running task :: r }
  | execute (p : ThreadPool ε ρ) (l r : List (Thread ε ρ)) (task : Task ε ρ) :
      p.m_threads = l ++ Thread.running task :: r →
      Effect p { p with
        shared := task.invoke p.shared
        executed := p.executed ++ [task]
        m_threads := l ++ Thread.waiting :: r }

/-- Every submitted task is in exactly one place (executed, held by a worker, or
queued), and the submitted tasks own the shared states created so far, one each. -/
def ExactlyOnce (p : ThreadPool ε ρ) : Prop :=
  (p.executed ++ pending p).Perm p.submitted ∧
  p.submitted.map Task.state = List.range p.shared.length

/-- The future of every executed task holds the outcome of its bound call. -/
def Delivered (p : ThreadPool ε ρ) : Prop :=
  ∀ t ∈ p.executed, futureGet p t.state = some (t.bound ())

/-- Actions that leave the thread collection in place: submissions, the soft-stop
flag and worker events. -/
def Action.keepsThreads : Action ε ρ → Bool
  | .enqueue _ => true
  | .softStop_lock => true
  | .worker _ => true
  | _ => false

/-- Is the action a call of `init`? -/
def Action.isInit : Action ε ρ → Bool
  | .init _ _ => true
  | _ => false

/-- Actions of other threads while a caller is inside `softStop`: submissions and
worker events. -/
def Action.duringStop : Action ε ρ → Bool
  | .enqueue _ => true
  | .worker _ => true
  | _ => false

/-- `softStop()` (lines 110-118) with the actions of the other threads, submissions
included, interleaved between the critical section and the return of
`clearThreads`: the mutex is released at line 115, before the join. -/
def softStopAmid (actions : List (Action ε ρ)) (p : ThreadPool ε ρ) :
    Option (ThreadPool ε ρ) :=
  (run actions (softStop_lock p)).bind clearThreads

/-- Bookkeeping between two states of a run of submissions and worker events:
`added` was submitted, `ran` was executed, `deq` was dequeued, in this order each;
and once no thread is running, at least the queue of `s` has been dequeued. -/
def Drain (s s' : ThreadPool ε ρ) : Prop :=
  ∃ added ran deq, s'.submitted = s.submitted ++ added ∧ s'.executed = s.executed ++ ran ∧
    (ran ++ held s'.m_threads).Perm (held s.m_threads ++ deq) ∧
    deq ++ s'.m_queue = s.m_queue ++ added ∧ s'.m_stopflag = s.m_stopflag ∧
    (someRunning s = true → s.m_queue.length ≤ deq.length ∨ someRunning s' = true)

/-! ## Concrete pools used to instantiate the theorems -/

/-- The only task of the concrete pools: it returns 7. -/
def task7 : Task Unit Nat := ⟨0, fun _ => Except.ok 7⟩

/-- A pool as `ThreadPool(1)` leaves it: one idle worker, nothing submitted. -/
def startPool : ThreadPool Unit Nat :=
  { m_numthreads := 1, m_threads := [Thread.waiting], m_queue := [],
    m_stopflag := false, m_stopflag_soft := false,
    shared := [], submitted := [], executed := [] }

/-- A running pool with one idle worker and one queued task. -/
def livePool : ThreadPool Unit Nat :=
  { m_numthreads := 1, m_threads := [Thread.waiting], m_queue := [task7],
    m_stopflag := false, m_stopflag_soft := false,
    shared := [none], submitted := [task7], executed := [] }

/-- The pool `livePool` after a soft stop. -/
def drainedPool : ThreadPool Unit Nat :=
  { m_numthreads := 1, m_threads := [], m_queue := [],
    m_stopflag := false, m_stopflag_soft := true,
    shared := [some (Except.ok 7)], submitted := [task7], executed := [task7] }

/-- The pool `livePool` after a hard stop: the task is left in the queue. -/
def abandonedPool : ThreadPool Unit Nat :=
  { m_numthreads := 1, m_threads := [], m_queue := [task7],
    m_stopflag := true, m_stopflag_soft := false,
    shared := [none], submitted := [task7], executed := [] }

/-- The callable of the concrete submissions: it adds 6. -/
def addSix (x : Nat) : Except Unit Nat := Except.ok (x + 6)

/-- The pool `startPool` after `enqueue(addSix, 1)` and after its worker has dequeued
and run the task. -/
def servedPool : ThreadPool Unit Nat :=
  { m_numthreads := 1, m_threads := [Thread.waiting], m_queue := [],
    m_stopflag := false, m_stopflag_soft := false,
    shared := [some (Except.ok 7)], submitted := [task7], executed := [task7] }

/-- The second task of the concrete pools: it returns 8. -/
def task8 : Task Unit Nat := ⟨1, fun _ => Except.ok 8⟩

/-- The pool `startPool` after two submissions, the first of them dequeued and run. -/
def fifoPool : ThreadPool Unit Nat :=
  { m_numthreads := 1, m_threads := [Thread.waiting], m_queue := [task8],
    m_stopflag := false, m_stopflag_soft := false,
    shared := [some (Except.ok 7), none], submitted := [task7, task8], executed := [task7] }

/-- The pool `abandonedPool` after `enqueue(addSix, 2)`, a second `stop` and its join. -/
def requeuedPool : ThreadPool Unit Nat :=
  { m_numthreads := 1, m_threads := [], m_queue := [task7, task8],
    m_stopflag := true, m_stopflag_soft := false,
    shared := [none, none], submitted := [task7, task8], executed := [] }

/-- A task whose callable raises the error 13. -/
def failingTask : Task Nat Nat := ⟨0, fun _ => Except.error 13⟩

/-- A pool whose only worker holds the failing task, with one more task queued. -/
def failingPool : ThreadPool Nat Nat :=
  { m_numthreads := 1, m_threads := [Thread.running failingTask],
    m_queue := [⟨1, fun _ => Except.ok 8⟩],
    m_stopflag := false, m_stopflag_soft := false,
    shared := [none, none],
    submitted := [failingTask, ⟨1, fun _ => Except.ok 8⟩], executed := [] }

/-- The pool `startPool` after a soft stop during which a task was submitted once
the worker had exited. -/
def lateSubmitPool : ThreadPool Unit Nat :=
  { m_numthreads := 1, m_threads := [], m_queue := [task7],
    m_stopflag := false, m_stopflag_soft := true,
    shared := [none], submitted := [task7], executed := [] }

/-- The pool `livePool` after a soft stop during which a second task was submitted
before the worker looked at the queue again. -/
def drainedAmidPool : ThreadPool Unit Nat :=
  { m_numthreads := 1, m_threads := [], m_queue := [],
    m_stopflag := false, m_stopflag_soft := true,
    shared := [some (Except.ok 7), some (Except.ok 8)],
    submitted := [task7, task8], executed := [task7, task8] }

/-! ## The loop of `init` -/
theorem spawn_shape (fuel : Nat) : ∀ (i n : Nat) (ts r : List (Thread ε ρ)),
    spawn fuel i n ts = some r → ∃ k, r = ts ++ List.replicate k Thread.waiting := by
  induction fuel with
  | zero => intro i n ts r h; simp [spawn] at h
  | succ fuel ih =>
    intro i n ts r h
    unfold spawn at h
    split at h
    · obtain ⟨k, hk⟩ := ih _ _ _ _ h
      exact ⟨k + 1, by rw [hk, List.append_assoc]; rfl⟩
    · exact ⟨0, by simpa using (Option.some.inj h).symm⟩

theorem spawn_count (fuel : Nat) : ∀ (i n : Nat) (ts r : List (Thread ε ρ)),
    i ≤ n → n < UINT_MOD → spawn fuel i n ts = some r →
    r = ts ++ List.replicate (n - i) Thread.waiting := by
  induction fuel with
  | zero => intro i n ts r _ _ h; simp [spawn] at h
  | succ fuel ih =>
    intro i n ts r hi hn h
    unfold spawn at h
    split at h
    · rename_i hlt
      have hmod : (i + 1) % UINT_MOD = i + 1 := Nat.mod_eq_of_lt (by omega)
      rw [hmod] at h
      have := ih (i + 1) n _ r (by omega) hn h
      rw [this, List.append_assoc]
      have : n - i = (n - (i + 1)) + 1 := by omega
      rw [this]; rfl
    · have : n - i = 0 := by omega
      rw [this]; simpa using (Option.some.inj h).symm

theorem spawn_returns (n : Nat) (hn : n < UINT_MOD) : ∀ (d i fuel : Nat) (ts : List (Thread ε ρ)),
    n - i = d → i ≤ n → d < fuel →
    spawn fuel i n ts = some (ts ++ List.replicate (n - i) Thread.waiting) := by
  intro d
  induction d with
  | zero =>
    intro i fuel ts hd hi hf
    obtain ⟨f, rfl⟩ : ∃ f, fuel = f + 1 := ⟨fuel - 1, by omega⟩
    have : ¬ i < n := by omega
    simp [spawn, this, hd]
  | succ d ih =>
    intro i fuel ts hd hi hf
    obtain ⟨f, rfl⟩ : ∃ f, fuel = f + 1 := ⟨fuel - 1, by omega⟩
    have hlt : i < n := by omega
    have hmod : (i + 1) % UINT_MOD = i + 1 := Nat.mod_eq_of_lt (by omega)
    unfold spawn
    rw [if_pos hlt, hmod, ih (i + 1) f _ (by omega) (by omega) (by omega), List.append_assoc, hd]
    have : n - (i + 1) = d := by omega
    rw [this]; rfl

theorem spawn_diverges (n : Nat) (hn : UINT_MOD ≤ n) (fuel : Nat) :
    ∀ (i : Nat) (ts : List (Thread ε ρ)), i < UINT_MOD → spawn fuel i n ts = none := by
  induction fuel with
  | zero => intro i ts _; rfl
  | succ fuel ih =>
    intro i ts hi
    unfold spawn
    rw [if_pos (by omega)]
    exact ih _ _ (Nat.mod_lt _ (by decide))

/-! ## `init` -/

theorem init_live (fuel n : Nat) (p : ThreadPool ε ρ) (h : p.m_threads ≠ []) :
    init fuel n p = some (false, p) := by
  have : p.m_threads.length ≠ 0 := by simpa using h
  simp [init, this]

theorem init_idle_cases (fuel n : Nat) (p : ThreadPool ε ρ) (h : p.m_threads = []) :
    init fuel n p = none ∨
    ∃ k, init fuel n p = some (true, { p with
        m_stopflag := false
        m_stopflag_soft := false
        m_numthreads := n
        m_threads := List.replicate k Thread.waiting }) := by
  unfold init
  rw [if_neg (by simp [h])]
  cases hs : spawn fuel 0 n p.m_threads with
  | none => exact Or.inl rfl
  | some r =>
    obtain ⟨k, hk⟩ := spawn_shape _ _ _ _ _ hs
    right
    refine ⟨k, ?_⟩
    simp [hk, h]

theorem init_idle_returns (fuel n : Nat) (p : ThreadPool ε ρ) (h : p.m_threads = [])
    (hn : n < UINT_MOD) (hf : n < fuel) :
    init fuel n p = some (true, { p with
        m_stopflag := false
        m_stopflag_soft := false
        m_numthreads := n
        m_threads := List.replicate n Thread.waiting }) := by
  unfold init
  rw [if_neg (by simp [h]), spawn_returns n hn n 0 fuel _ rfl (Nat.zero_le _) hf]
  simp [h]

theorem init_idle_result (fuel n : Nat) (p : ThreadPool ε ρ) (b : Bool) (p' : ThreadPool ε ρ)
    (h : p.m_threads = []) (hr : init fuel n p = some (b, p')) :
    b = true ∧ ∃ k, (n < UINT_MOD → k = n) ∧ p' = { p with
        m_stopflag := false
        m_stopflag_soft := false
        m_numthreads := n
        m_threads := List.replicate k Thread.waiting } := by
  unfold init at hr
  rw [if_neg (by simp [h])] at hr
  cases hs : spawn fuel 0 n p.m_threads with
  | none => simp [hs] at hr
  | some r =>
    simp only [hs, Option.some.injEq, Prod.mk.injEq] at hr
    obtain ⟨hb, hp⟩ := hr
    refine ⟨hb.symm, ?_⟩
    obtain ⟨k, hk⟩ := spawn_shape _ _ _ _ _ hs
    refine ⟨k, ?_, ?_⟩
    · intro hn
      have := spawn_count _ _ _ _ _ (Nat.zero_le _) hn hs
      rw [hk, h] at this
      have := congrArg List.length this
      simpa using this
    · rw [← hp, hk, h]; rfl

theorem init_idle_diverges (fuel n : Nat) (p : ThreadPool ε ρ) (h : p.m_threads = [])
    (hn : UINT_MOD ≤ n) : init fuel n p = none := by
  unfold init
  rw [if_neg (by simp [h]), spawn_diverges n hn fuel 0 _ (by decide)]

/-! ## Worker events -/

theorem lock_cases {i : Nat} {p p' : ThreadPool ε ρ} (h : threadFunction_lock i p = some p') :
    p.m_threads[i]? = some Thread.waiting ∧ wakePredicate p = true ∧
    ((exitCondition p = true ∧ p' = { p with m_threads := p.m_threads.set i Thread.finished }) ∨
     (exitCondition p = false ∧ ∃ task rest, p.m_queue = task :: rest ∧
        p' = { p with m_queue := rest, m_threads := p.m_threads.set i (Thread.running task) })) := by
  unfold threadFunction_lock at h
  split at h
  · rename_i hw
    refine ⟨hw, ?_⟩
    by_cases hwake : wakePredicate p = true
    · rw [if_pos hwake] at h
      refine ⟨hwake, ?_⟩
      by_cases hexit : exitCondition p = true
      · rw [if_pos hexit] at h
        exact Or.inl ⟨hexit, (Option.some.inj h).symm⟩
      · rw [if_neg hexit] at h
        right
        refine ⟨by simpa using hexit, ?_⟩
        cases hq : p.m_queue with
        | nil => simp [hq, front, pop] at h
        | cons task rest =>
          simp only [hq, front, pop, List.head?_cons] at h
          exact ⟨task, rest, rfl, (Option.some.inj h).symm⟩
    · rw [if_neg hwake] at h
      cases h
  · cases h

theorem task_cases {i : Nat} {p p' : ThreadPool ε ρ} (h : threadFunction_task i p = some p') :
    ∃ task, p.m_threads[i]? = some (Thread.running task) ∧
      p' = { p with
        shared := task.invoke p.shared
        executed := p.executed ++ [task]
        m_threads := p.m_threads.set i Thread.waiting } := by
  unfold threadFunction_task at h
  split at h
  · rename_i task ht
    exact ⟨task, ht, (Option.some.inj h).symm⟩
  · cases h

theorem set_split {α : Type} (b : α) : ∀ (ts : List α) (i : Nat) (a : α), ts[i]? = some a →
    ∃ l r, ts = l ++ a :: r ∧ ts.set i b = l ++ b :: r ∧ l.length = i := by
  intro ts
  induction ts with
  | nil => intro i a h; simp at h
  | cons x xs ih =>
    intro i a h
    cases i with
    | zero =>
      simp at h
      exact ⟨[], xs, by simp [h], by simp, rfl⟩
    | succ j =>
      simp at h
      obtain ⟨l, r, h1, h2, h3⟩ := ih j a h
      exact ⟨x :: l, r, by simp [h1], by simp [h2], by simp [h3]⟩

theorem held_append (l r : List (Thread ε ρ)) : held (l ++ r) = held l ++ held r := by
  simp [held]

theorem load_append (l r : List (Thread ε ρ)) : load (l ++ r) = load l + load r := by
  simp [load]

theorem effect_of_event {e : Event} {p p' : ThreadPool ε ρ} (h : threadFunction e p = some p') :
    Effect p p' := by
  cases e with
  | lock i =>
    obtain ⟨hi, hw, hc⟩ := lock_cases h
    obtain ⟨l, r, h1, h2, -⟩ := set_split (Thread.finished : Thread ε ρ) _ _ _ hi
    rcases hc with ⟨hx, rfl⟩ | ⟨hx, task, rest, hq, rfl⟩
    · rw [h2]; exact Effect.exit p l r h1 hw hx
    · obtain ⟨l, r, h1, h2, -⟩ := set_split (Thread.running task) _ _ _ hi
      rw [h2]; exact Effect.dequeue p l r task rest h1 hw hx hq
  | task i =>
    obtain ⟨task, hi, rfl⟩ := task_cases h
    obtain ⟨l, r, h1, h2, -⟩ := set_split (Thread.waiting : Thread ε ρ) _ _ _ hi
    rw [h2]; exact Effect.execute p l r task h1

theorem effect_frame {p p' : ThreadPool ε ρ} (h : Effect p p') :
    p'.m_stopflag = p.m_stopflag ∧ p'.m_stopflag_soft = p.m_stopflag_soft ∧
    p'.m_numthreads = p.m_numthreads ∧ p'.submitted = p.submitted ∧
    p'.m_threads.length = p.m_threads.length := by
  cases h with
  | exit l r h1 _ _ => simp [h1]
  | dequeue l r task rest h1 _ _ _ => simp [h1]
  | execute l r task h1 => simp [h1]

theorem effect_workLeft {p p' : ThreadPool ε ρ} (h : Effect p p') :
    workLeft p = workLeft p' + 1 := by
  cases h with
  | exit l r h1 _ _ => simp [workLeft, h1, load, Thread.weight]; omega
  | dequeue l r task rest h1 _ _ hq => simp [workLeft, h1, hq, load, Thread.weight]; omega
  | execute l r task h1 => simp [workLeft, h1, load, Thread.weight]; omega

theorem effect_conserves {p p' : ThreadPool ε ρ} (h : Effect p p') :
    ∃ ran, p'.executed = p.executed ++ ran ∧ (ran ++ pending p').Perm (pending p) := by
  cases h with
  | exit l r h1 _ _ =>
    exact ⟨[], by simp, by simp [pending, h1, held, Thread.task?]⟩
  | dequeue l r task rest h1 _ _ hq =>
    refine ⟨[], by simp, ?_⟩
    simp only [pending, h1, hq, held_append, List.nil_append]
    simp only [held, List.filterMap_cons, Thread.task?]
    simp only [List.append_assoc, List.cons_append]
    refine List.Perm.append_left _ ?_
    exact List.perm_middle.symm
  | execute l r task h1 =>
    refine ⟨[task], rfl, ?_⟩
    simp only [pending, h1, held_append]
    simp only [held, List.filterMap_cons, Thread.task?]
    simp only [List.append_assoc, List.cons_append, List.singleton_append, List.nil_append]
    exact List.perm_middle.symm


/-! ## Schedules -/

theorem queue_nonempty_of_wake {p : ThreadPool ε ρ} (hw : wakePredicate p = true)
    (hx : exitCondition p = false) : p.m_queue ≠ [] := by
  intro hq
  simp [wakePredicate, exitCondition, hq] at hw hx
  rcases hw with h | h
  · simp [h] at hx
  · simp [h] at hx

theorem lock_enabled {i : Nat} {p : ThreadPool ε ρ} (hi : p.m_threads[i]? = some Thread.waiting)
    (hw : wakePredicate p = true) : ∃ p', threadFunction_lock i p = some p' := by
  unfold threadFunction_lock
  simp only [hi, hw, if_true]
  by_cases hx : exitCondition p = true
  · simp [hx]
  · have hx' : exitCondition p = false := by simpa using hx
    have hq := queue_nonempty_of_wake hw hx'
    cases hqq : p.m_queue with
    | nil => exact absurd hqq hq
    | cons task rest => simp [hx', front, pop]

theorem task_enabled {i : Nat} {p : ThreadPool ε ρ} {task : Task ε ρ}
    (hi : p.m_threads[i]? = some (Thread.running task)) :
    ∃ p', threadFunction_task i p = some p' := by
  unfold threadFunction_task
  simp [hi]

theorem workers_cons_some {e : Event} {sched : List Event} {p p' : ThreadPool ε ρ}
    (h : workers (e :: sched) p = some p') :
    ∃ q, threadFunction e p = some q ∧ workers sched q = some p' := by
  simpa [workers, Option.bind_eq_some] using h

theorem workers_frame {sched : List Event} {p p' : ThreadPool ε ρ}
    (h : workers sched p = some p') :
    p'.m_stopflag = p.m_stopflag ∧ p'.m_stopflag_soft = p.m_stopflag_soft ∧
    p'.m_numthreads = p.m_numthreads ∧ p'.submitted = p.submitted ∧
    p'.m_threads.length = p.m_threads.length := by
  induction sched generalizing p with
  | nil => simp [workers] at h; subst h; simp
  | cons e s ih =>
    obtain ⟨m, hm, hs⟩ := workers_cons_some h
    obtain ⟨a1, a2, a3, a4, a5⟩ := effect_frame (effect_of_event hm)
    obtain ⟨b1, b2, b3, b4, b5⟩ := ih hs
    exact ⟨b1.trans a1, b2.trans a2, b3.trans a3, b4.trans a4, b5.trans a5⟩

theorem workers_workLeft {sched : List Event} {p p' : ThreadPool ε ρ}
    (h : workers sched p = some p') : workLeft p = workLeft p' + sched.length := by
  induction sched generalizing p with
  | nil => simp [workers] at h; subst h; simp
  | cons e s ih =>
    obtain ⟨m, hm, hs⟩ := workers_cons_some h
    have h1 := effect_workLeft (effect_of_event hm)
    have h2 := ih hs
    simp only [List.length_cons]
    omega

theorem workers_conserves {sched : List Event} {p p' : ThreadPool ε ρ}
    (h : workers sched p = some p') :
    ∃ ran, p'.executed = p.executed ++ ran ∧ (ran ++ pending p').Perm (pending p) := by
  induction sched generalizing p with
  | nil => simp [workers] at h; subst h; exact ⟨[], by simp, by simp⟩
  | cons e s ih =>
    obtain ⟨m, hm, hs⟩ := workers_cons_some h
    obtain ⟨r1, e1, q1⟩ := effect_conserves (effect_of_event hm)
    obtain ⟨r2, e2, q2⟩ := ih hs
    refine ⟨r1 ++ r2, by rw [e2, e1, List.append_assoc], ?_⟩
    rw [List.append_assoc]
    exact (List.Perm.append_left r1 q2).trans q1

theorem effect_hard_queue {p p' : ThreadPool ε ρ} (h : Effect p p')
    (hs : p.m_stopflag = true) : p'.m_queue = p.m_queue := by
  cases h with
  | exit l r h1 _ _ => rfl
  | dequeue l r task rest h1 _ hx hq => simp [exitCondition, hs] at hx
  | execute l r task h1 => rfl

theorem workers_hard_queue {sched : List Event} {p p' : ThreadPool ε ρ}
    (h : workers sched p = some p') (hf : p.m_stopflag = true) : p'.m_queue = p.m_queue := by
  induction sched generalizing p with
  | nil => simp [workers] at h; subst h; rfl
  | cons e s ih =>
    obtain ⟨m, hm, hs⟩ := workers_cons_some h
    have he := effect_of_event hm
    have hm' : m.m_stopflag = true := (effect_frame he).1.trans hf
    exact (ih hs hm').trans (effect_hard_queue he hf)

theorem someRunning_mid (l r : List (Thread ε ρ)) (t : Thread ε ρ) (ht : t.isFinished = false)
    (p : ThreadPool ε ρ) (h : p.m_threads = l ++ t :: r) : someRunning p = true := by
  simp [someRunning, h, ht]

theorem effect_soft_drains {p p' : ThreadPool ε ρ} (h : Effect p p')
    (hs : p.m_stopflag = false) :
    p'.m_queue = [] ∨ someRunning p' = true := by
  cases h with
  | exit l r h1 _ hx =>
    left
    simp [exitCondition, hs] at hx
    simpa using hx.2
  | dequeue l r task rest h1 _ hx hq =>
    right; exact someRunning_mid l r (Thread.running task) rfl _ rfl
  | execute l r task h1 =>
    right; exact someRunning_mid l r Thread.waiting rfl _ rfl

theorem workers_soft_drains {sched : List Event} {p p' : ThreadPool ε ρ}
    (h : workers sched p = some p') (hf : p.m_stopflag = false)
    (hk : p.m_queue = [] ∨ someRunning p = true) :
    p'.m_queue = [] ∨ someRunning p' = true := by
  induction sched generalizing p with
  | nil => simp [workers] at h; subst h; exact hk
  | cons e s ih =>
    obtain ⟨m, hm, hs⟩ := workers_cons_some h
    have he := effect_of_event hm
    exact ih hs ((effect_frame he).1.trans hf) (effect_soft_drains he hf)

theorem all_finished_iff (p : ThreadPool ε ρ) :
    p.m_threads.all Thread.isFinished = true ↔ someRunning p = false := by
  simp [someRunning]

theorem held_of_all_finished (ts : List (Thread ε ρ)) (h : ts.all Thread.isFinished = true) :
    held ts = [] := by
  induction ts with
  | nil => rfl
  | cons t ts ih =>
    simp only [List.all_cons, Bool.and_eq_true] at h
    cases t with
    | finished => simpa [held, Thread.task?] using ih h.2
    | waiting => simp [Thread.isFinished] at h
    | running task => simp [Thread.isFinished] at h

theorem progress {p : ThreadPool ε ρ} (hf : (p.m_stopflag || p.m_stopflag_soft) = true)
    (hr : someRunning p = true) : ∃ e p', threadFunction e p = some p' := by
  simp only [someRunning, List.any_eq_true] at hr
  obtain ⟨t, hmem, ht⟩ := hr
  obtain ⟨i, hi⟩ := List.mem_iff_getElem?.mp hmem
  cases t with
  | finished => simp [Thread.isFinished] at ht
  | waiting =>
    have hw : wakePredicate p = true := by
      simp only [Bool.or_eq_true] at hf
      rcases hf with h | h <;> simp [wakePredicate, h]
    obtain ⟨p', hp'⟩ := lock_enabled hi hw
    exact ⟨Event.lock i, p', hp'⟩
  | running task =>
    obtain ⟨p', hp'⟩ := task_enabled hi
    exact ⟨Event.task i, p', hp'⟩

theorem drain_exists (n : Nat) : ∀ p : ThreadPool ε ρ, workLeft p = n →
    (p.m_stopflag || p.m_stopflag_soft) = true →
    ∃ sched p', workers sched p = some p' ∧ p'.m_threads.all Thread.isFinished = true := by
  induction n with
  | zero =>
    intro p hn hf
    by_cases hr : someRunning p = true
    · obtain ⟨e, p', he⟩ := progress hf hr
      have := effect_workLeft (effect_of_event he)
      omega
    · exact ⟨[], p, rfl, (all_finished_iff p).mpr (by simpa using hr)⟩
  | succ n ih =>
    intro p hn hf
    by_cases hr : someRunning p = true
    · obtain ⟨e, q, he⟩ := progress hf hr
      have hm := effect_workLeft (effect_of_event he)
      obtain ⟨a1, a2, -⟩ := effect_frame (effect_of_event he)
      obtain ⟨sched, p', hs, hfin⟩ := ih q (by omega) (by rw [a1, a2]; exact hf)
      exact ⟨e :: sched, p', by simp [workers, he, hs], hfin⟩
    · exact ⟨[], p, rfl, (all_finished_iff p).mpr (by simpa using hr)⟩

theorem load_of_all_finished (ts : List (Thread ε ρ)) (h : ts.all Thread.isFinished = true) :
    load ts = 0 := by
  induction ts with
  | nil => rfl
  | cons t ts ih =>
    simp only [List.all_cons, Bool.and_eq_true] at h
    cases t with
    | finished =>
      have := ih h.2
      simp only [load] at this
      simp [load, Thread.weight, this]
    | waiting => simp [Thread.isFinished] at h
    | running task => simp [Thread.isFinished] at h

theorem clearThreads_of_finished {p : ThreadPool ε ρ}
    (h : p.m_threads.all Thread.isFinished = true) :
    clearThreads p = some { p with m_threads := [] } := by
  unfold clearThreads
  rw [if_pos h]

theorem clearThreads_some {p p' : ThreadPool ε ρ} (h : clearThreads p = some p') :
    p.m_threads.all Thread.isFinished = true ∧ p' = { p with m_threads := [] } := by
  unfold clearThreads at h
  split at h
  · rename_i hall
    exact ⟨hall, (Option.some.inj h).symm⟩
  · cases h

theorem softStop_some {sched : List Event} {p p' : ThreadPool ε ρ}
    (h : softStop sched p = some p') :
    ∃ mid, workers sched (softStop_lock p) = some mid ∧
      mid.m_threads.all Thread.isFinished = true ∧ p' = { mid with m_threads := [] } := by
  simp only [softStop, Option.bind_eq_some] at h
  obtain ⟨mid, hm, hc⟩ := h
  exact ⟨mid, hm, clearThreads_some hc⟩

theorem stop_some {sched : List Event} {p p' : ThreadPool ε ρ}
    (h : stop sched p = some p') :
    ∃ mid, workers sched (stop_lock p) = some mid ∧
      mid.m_threads.all Thread.isFinished = true ∧ p' = { mid with m_threads := [] } := by
  simp only [stop, Option.bind_eq_some] at h
  obtain ⟨mid, hm, hc⟩ := h
  exact ⟨mid, hm, clearThreads_some hc⟩

theorem lock_exit_iff {i : Nat} {p p' : ThreadPool ε ρ} (h : threadFunction_lock i p = some p')
    (hfin : p'.m_threads[i]? = some Thread.finished) : exitCondition p = true := by
  obtain ⟨hi, -, hc⟩ := lock_cases h
  rcases hc with ⟨hx, -⟩ | ⟨-, task, rest, -, rfl⟩
  · exact hx
  · have hlt : i < p.m_threads.length := by
      rcases Nat.lt_or_ge i p.m_threads.length with h | h
      · exact h
      · simp [List.getElem?_eq_none h] at hi
    simp [List.getElem?_set, hlt] at hfin

/-! ## Runs of the whole system -/

theorem run_cons_some {a : Action ε ρ} {rest : List (Action ε ρ)} {p p' : ThreadPool ε ρ}
    (h : run (a :: rest) p = some p') : ∃ q, step a p = some q ∧ run rest q = some p' := by
  simpa [run, Option.bind_eq_some] using h

/-- What a returning `init` does, as seen by `step`. -/
theorem step_init_cases {fuel n : Nat} {p p' : ThreadPool ε ρ}
    (h : step (Action.init fuel n) p = some p') :
    p' = p ∨ (p.m_threads = [] ∧ ∃ k, p' = { p with
        m_stopflag := false
        m_stopflag_soft := false
        m_numthreads := n
        m_threads := List.replicate k Thread.waiting }) := by
  simp only [step, Option.map_eq_some'] at h
  obtain ⟨⟨b, q⟩, hq, rfl⟩ := h
  by_cases hnil : p.m_threads = []
  · obtain ⟨-, k, -, hk⟩ := init_idle_result fuel n p b q hnil hq
    exact Or.inr ⟨hnil, k, hk⟩
  · rw [init_live fuel n p hnil] at hq
    simp only [Option.some.injEq, Prod.mk.injEq] at hq
    exact Or.inl hq.2.symm

theorem held_replicate_waiting (k : Nat) :
    held (List.replicate k (Thread.waiting : Thread ε ρ)) = [] := by
  induction k with
  | zero => rfl
  | succ k ih => simp [held, List.replicate_succ, Thread.task?]

theorem exactlyOnce_effect {p p' : ThreadPool ε ρ} (h : Effect p p') (hinv : ExactlyOnce p) :
    ExactlyOnce p' := by
  obtain ⟨ran, he, hp⟩ := effect_conserves h
  obtain ⟨-, -, -, hsub, -⟩ := effect_frame h
  have hlen : p'.shared.length = p.shared.length := by
    cases h with
    | exit l r h1 _ _ => rfl
    | dequeue l r task rest h1 _ _ _ => rfl
    | execute l r task h1 => simp [Task.invoke]
  refine ⟨?_, by rw [hsub, hlen]; exact hinv.2⟩
  rw [he, hsub, List.append_assoc]
  exact (List.Perm.append_left _ hp).trans hinv.1

theorem exactlyOnce_step {a : Action ε ρ} {p p' : ThreadPool ε ρ} (h : step a p = some p')
    (hinv : ExactlyOnce p) : ExactlyOnce p' := by
  cases a with
  | enqueue bound =>
    simp only [step, Option.some.injEq] at h
    subst h
    obtain ⟨h1, h2⟩ := hinv
    refine ⟨?_, ?_⟩
    · simp only [enqueue, pending] at h1 ⊢
      rw [← List.append_assoc, ← List.append_assoc]
      refine List.Perm.append_right _ ?_
      simpa [List.append_assoc] using h1
    · simp [enqueue, h2, List.range_succ]
  | init fuel n =>
    rcases step_init_cases h with rfl | ⟨hnil, k, rfl⟩
    · exact hinv
    · obtain ⟨h1, h2⟩ := hinv
      refine ⟨?_, h2⟩
      have hk := held_replicate_waiting (ε := ε) (ρ := ρ) k
      simp only [pending, hnil, hk] at h1 ⊢
      simpa [held] using h1
  | stop_lock => simp only [step, Option.some.injEq] at h; subst h; exact hinv
  | softStop_lock => simp only [step, Option.some.injEq] at h; subst h; exact hinv
  | clearThreads =>
    obtain ⟨hfin, rfl⟩ := clearThreads_some h
    obtain ⟨h1, h2⟩ := hinv
    refine ⟨?_, h2⟩
    have hh := held_of_all_finished _ hfin
    simp only [pending, hh] at h1 ⊢
    simpa [held] using h1
  | worker e => exact exactlyOnce_effect (effect_of_event h) hinv

theorem exactlyOnce_run {actions : List (Action ε ρ)} {p p' : ThreadPool ε ρ}
    (h : run actions p = some p') (hinv : ExactlyOnce p) : ExactlyOnce p' := by
  induction actions generalizing p with
  | nil => simp [run] at h; subst h; exact hinv
  | cons a rest ih =>
    obtain ⟨q, hq, hr⟩ := run_cons_some h
    exact ih hr (exactlyOnce_step hq hinv)

theorem exactlyOnce_ctor {fuel n : Nat} {p : ThreadPool ε ρ} (h : ctor fuel n = some p) :
    ExactlyOnce p := by
  have h' : step (Action.init fuel n) (fresh n) = some p := h
  exact exactlyOnce_step h' ⟨by simp [fresh, pending, held], by simp [fresh]⟩

theorem exactlyOnce_reachable {p : ThreadPool ε ρ} (h : Reachable p) : ExactlyOnce p := by
  obtain ⟨fuel, n, actions, h⟩ := h
  simp only [Option.bind_eq_some] at h
  obtain ⟨q, hq, hr⟩ := h
  exact exactlyOnce_run hr (exactlyOnce_ctor hq)

theorem exactlyOnce_nodup {p : ThreadPool ε ρ} (h : ExactlyOnce p) :
    ((p.executed ++ pending p).map Task.state).Nodup := by
  have := (h.1.map Task.state).nodup_iff
  rw [this, h.2]
  exact List.nodup_range _

/-! ## One worker: order is preserved -/

theorem effect_fifo {p p' : ThreadPool ε ρ} (h : Effect p p') (h1 : p.m_threads.length = 1) :
    p'.executed ++ pending p' = p.executed ++ pending p := by
  cases h with
  | exit l r ht _ _ =>
    rw [ht] at h1
    obtain ⟨rfl, rfl⟩ : l = [] ∧ r = [] := by
      cases l <;> cases r <;> simp at h1 ⊢
    simp [pending, ht, held, Thread.task?]
  | dequeue l r task rest ht _ _ hq =>
    rw [ht] at h1
    obtain ⟨rfl, rfl⟩ : l = [] ∧ r = [] := by
      cases l <;> cases r <;> simp at h1 ⊢
    simp [pending, ht, hq, held, Thread.task?]
  | execute l r task ht =>
    rw [ht] at h1
    obtain ⟨rfl, rfl⟩ : l = [] ∧ r = [] := by
      cases l <;> cases r <;> simp at h1 ⊢
    simp [pending, ht, held, Thread.task?]

theorem workers_fifo {sched : List Event} {p p' : ThreadPool ε ρ}
    (h : workers sched p = some p') (h1 : p.m_threads.length = 1) :
    p'.executed ++ pending p' = p.executed ++ pending p := by
  induction sched generalizing p with
  | nil => simp [workers] at h; subst h; rfl
  | cons e s ih =>
    obtain ⟨m, hm, hs⟩ := workers_cons_some h
    have he := effect_of_event hm
    have hlen : m.m_threads.length = 1 := (effect_frame he).2.2.2.2.trans h1
    exact (ih hs hlen).trans (effect_fifo he h1)

theorem held_length_le (ts : List (Thread ε ρ)) : (held ts).length ≤ ts.length := by
  simpa [held] using List.length_filterMap_le Thread.task? ts

theorem fifo_step {a : Action ε ρ} {p p' : ThreadPool ε ρ} (h : step a p = some p')
    (hk : a.keepsThreads = true) (h1 : p.m_threads.length = 1) :
    p'.m_threads.length = 1 ∧ ∃ added, p'.submitted = p.submitted ++ added ∧
      p'.executed ++ pending p' = p.executed ++ pending p ++ added := by
  cases a with
  | enqueue bound =>
    simp only [step, Option.some.injEq] at h
    subst h
    exact ⟨h1, [⟨p.shared.length, fun _ => bound ()⟩], rfl, by simp [enqueue, pending]⟩
  | init fuel n => cases hk
  | stop_lock => cases hk
  | softStop_lock =>
    simp only [step, Option.some.injEq] at h
    subst h
    exact ⟨h1, [], by simp [softStop_lock], by simp [softStop_lock, pending]⟩
  | clearThreads => cases hk
  | worker e =>
    have he := effect_of_event h
    exact ⟨(effect_frame he).2.2.2.2.trans h1, [], by simp [(effect_frame he).2.2.2.1],
      by simpa using effect_fifo he h1⟩

/-! ## Delivery through the future -/

theorem getD_set_ne {α : Type} (l : List α) (i j : Nat) (a d : α) (h : i ≠ j) :
    (l.set i a).getD j d = l.getD j d := by
  simp [List.getD, List.getElem?_set, h]

theorem getD_set_eq {α : Type} (l : List α) (i : Nat) (a d : α) (h : i < l.length) :
    (l.set i a).getD i d = a := by
  simp [List.getD, List.getElem?_set, h]

theorem getD_append_left {α : Type} (l r : List α) (i : Nat) (d : α) (h : i < l.length) :
    (l ++ r).getD i d = l.getD i d := by
  simp [List.getD, List.getElem?_append_left h]

theorem state_lt_of_mem {p : ThreadPool ε ρ} (hinv : ExactlyOnce p) {t : Task ε ρ}
    (ht : t ∈ p.executed ++ pending p) : t.state < p.shared.length := by
  have hmem : t ∈ p.submitted := hinv.1.subset ht
  have : t.state ∈ p.submitted.map Task.state := List.mem_map_of_mem _ hmem
  rw [hinv.2] at this
  exact List.mem_range.mp this

theorem delivered_effect {p p' : ThreadPool ε ρ} (h : Effect p p') (hinv : ExactlyOnce p)
    (hd : Delivered p) : Delivered p' := by
  cases h with
  | exit l r h1 _ _ => exact hd
  | dequeue l r task rest h1 _ _ _ => exact hd
  | execute l r task h1 =>
    intro t ht
    have hnd := exactlyOnce_nodup hinv
    have htask : task ∈ pending p := by simp [pending, h1, held, Thread.task?]
    have hlt : task.state < p.shared.length :=
      state_lt_of_mem hinv (List.mem_append_right _ htask)
    simp only [List.mem_append, List.mem_singleton] at ht
    rcases ht with ht | rfl
    · have hne : task.state ≠ t.state := by
        rw [List.map_append] at hnd
        have hdis := List.disjoint_of_nodup_append hnd
        intro heq
        exact hdis (List.mem_map_of_mem _ ht) (heq ▸ List.mem_map_of_mem _ htask)
      have := hd t ht
      simp only [futureGet, Task.invoke] at this ⊢
      rw [getD_set_ne _ _ _ _ _ hne]
      exact this
    · simp only [futureGet, Task.invoke]
      exact getD_set_eq _ _ _ _ hlt

theorem delivered_step {a : Action ε ρ} {p p' : ThreadPool ε ρ} (h : step a p = some p')
    (hinv : ExactlyOnce p) (hd : Delivered p) : Delivered p' := by
  cases a with
  | enqueue bound =>
    simp only [step, Option.some.injEq] at h
    subst h
    intro t ht
    have ht' : t ∈ p.executed := ht
    have hlt := state_lt_of_mem hinv (List.mem_append_left _ ht')
    have := hd t ht'
    simp only [futureGet, enqueue] at this ⊢
    rw [getD_append_left _ _ _ _ hlt]
    exact this
  | init fuel n =>
    rcases step_init_cases h with rfl | ⟨hnil, k, rfl⟩
    · exact hd
    · exact hd
  | stop_lock => simp only [step, Option.some.injEq] at h; subst h; exact hd
  | softStop_lock => simp only [step, Option.some.injEq] at h; subst h; exact hd
  | clearThreads =>
    obtain ⟨hfin, rfl⟩ := clearThreads_some h
    exact hd
  | worker e => exact delivered_effect (effect_of_event h) hinv hd

theorem delivered_run {actions : List (Action ε ρ)} {p p' : ThreadPool ε ρ}
    (h : run actions p = some p') (hinv : ExactlyOnce p) (hd : Delivered p) : Delivered p' := by
  induction actions generalizing p with
  | nil => simp [run] at h; subst h; exact hd
  | cons a rest ih =>
    obtain ⟨q, hq, hr⟩ := run_cons_some h
    exact ih hr (exactlyOnce_step hq hinv) (delivered_step hq hinv hd)

theorem delivered_reachable {p : ThreadPool ε ρ} (h : Reachable p) : Delivered p := by
  obtain ⟨fuel, n, actions, h⟩ := h
  simp only [Option.bind_eq_some] at h
  obtain ⟨q, hq, hr⟩ := h
  refine delivered_run hr (exactlyOnce_ctor hq) ?_
  have h' : step (Action.init fuel n) (fresh n) = some q := hq
  exact delivered_step h' ⟨by simp [fresh, pending, held], by simp [fresh]⟩
    (by intro t ht; simp [fresh] at ht)

/-! ## A pool without threads -/

theorem idle_step {a : Action ε ρ} {p p' : ThreadPool ε ρ} (h : step a p = some p')
    (hi : a.isInit = false) (hnil : p.m_threads = []) :
    p'.m_threads = [] ∧ p'.executed = p.executed ∧ ∃ later, p'.m_queue = p.m_queue ++ later := by
  cases a with
  | enqueue bound =>
    simp only [step, Option.some.injEq] at h
    subst h
    exact ⟨hnil, rfl, _, rfl⟩
  | init fuel n => cases hi
  | stop_lock =>
    simp only [step, Option.some.injEq] at h; subst h; exact ⟨hnil, rfl, [], by simp [stop_lock]⟩
  | softStop_lock =>
    simp only [step, Option.some.injEq] at h; subst h
    exact ⟨hnil, rfl, [], by simp [softStop_lock]⟩
  | clearThreads =>
    obtain ⟨-, rfl⟩ := clearThreads_some h
    exact ⟨rfl, rfl, [], by simp⟩
  | worker e =>
    have he := effect_of_event h
    cases he with
    | exit l r h1 _ _ => simp [hnil] at h1
    | dequeue l r task rest h1 _ _ _ => simp [hnil] at h1
    | execute l r task h1 => simp [hnil] at h1

theorem idle_run {actions : List (Action ε ρ)} {p p' : ThreadPool ε ρ}
    (h : run actions p = some p') (hi : ∀ a ∈ actions, a.isInit = false)
    (hnil : p.m_threads = []) :
    p'.m_threads = [] ∧ p'.executed = p.executed ∧ ∃ later, p'.m_queue = p.m_queue ++ later := by
  induction actions generalizing p with
  | nil => simp [run] at h; subst h; exact ⟨hnil, rfl, [], by simp⟩
  | cons a rest ih =>
    obtain ⟨q, hq, hr⟩ := run_cons_some h
    obtain ⟨a1, a2, l1, a3⟩ := idle_step hq (hi a (List.mem_cons_self _ _)) hnil
    obtain ⟨b1, b2, l2, b3⟩ := ih hr (fun b hb => hi b (List.mem_cons_of_mem _ hb)) a1
    exact ⟨b1, b2.trans a2, l1 ++ l2, by rw [b3, a3, List.append_assoc]⟩

theorem getElem?_set_self {α : Type} (l : List α) (i : Nat) (a : α) (h : i < l.length) :
    (l.set i a)[i]? = some a := by
  simp [List.getElem?_set, h]

theorem worker_survives (p : ThreadPool ε ρ) (i : Nat) (task : Task ε ρ)
    (hi : p.m_threads[i]? = some (Thread.running task)) :
    ∃ q1, threadFunction_task i p = some q1 ∧
      q1.m_threads[i]? = some Thread.waiting ∧ q1.m_queue = p.m_queue ∧
      q1.executed = p.executed ++ [task] ∧
      (p.m_stopflag = false → ∀ next rest, p.m_queue = next :: rest →
        ∃ q2, threadFunction_lock i q1 = some q2 ∧
          q2.m_threads[i]? = some (Thread.running next) ∧
          ∃ q3, threadFunction_task i q2 = some q3 ∧
            q3.executed = p.executed ++ [task, next]) := by
  have hlt : i < p.m_threads.length := by
    rcases Nat.lt_or_ge i p.m_threads.length with h | h
    · exact h
    · simp [List.getElem?_eq_none h] at hi
  obtain ⟨q, hq⟩ := task_enabled hi
  obtain ⟨task', hi', rfl⟩ := task_cases hq
  obtain rfl : task = task' := by
    rw [hi] at hi'; simpa using hi'
  refine ⟨_, hq, getElem?_set_self _ _ _ hlt, rfl, rfl, ?_⟩
  intro hs next rest hqueue
  have hw1 : (p.m_threads.set i (Thread.waiting : Thread ε ρ))[i]? = some Thread.waiting :=
    getElem?_set_self _ _ _ hlt
  have hlt1 : i < (p.m_threads.set i (Thread.waiting : Thread ε ρ)).length := by simpa using hlt
  refine ⟨{ p with
      shared := task.invoke p.shared
      executed := p.executed ++ [task]
      m_queue := rest
      m_threads := (p.m_threads.set i Thread.waiting).set i (Thread.running next) }, ?_, ?_, ?_⟩
  · simp only [threadFunction_lock, hw1]
    simp [wakePredicate, exitCondition, hs, hqueue, front, pop]
  · exact getElem?_set_self _ _ _ hlt1
  · have hr : ((p.m_threads.set i (Thread.waiting : Thread ε ρ)).set i (Thread.running next))[i]?
        = some (Thread.running next) := getElem?_set_self _ _ _ hlt1
    refine ⟨{ p with
      m_threads :=
        ((p.m_threads.set i Thread.waiting).set i (Thread.running next)).set i Thread.waiting
      m_queue := rest
      shared := next.invoke (task.invoke p.shared)
      executed := p.executed ++ [task] ++ [next] }, by simp only [threadFunction_task, hr], ?_⟩
    simp

/-! ## Postconditions of the two stops -/

theorem softStop_returns (p : ThreadPool ε ρ) : ∃ sched p', softStop sched p = some p' := by
  obtain ⟨sched, mid, hs, hfin⟩ :=
    drain_exists (workLeft (softStop_lock p)) (softStop_lock p) rfl (by simp [softStop_lock])
  exact ⟨sched, { mid with m_threads := [] }, by simp [softStop, hs, clearThreads_of_finished hfin]⟩

theorem softStop_post {p p' : ThreadPool ε ρ} {sched : List Event}
    (hrun : someRunning p = true) (hhard : p.m_stopflag = false)
    (h : softStop sched p = some p') :
    p'.m_queue = [] ∧ p'.m_threads = [] ∧ sched.length = workLeft p ∧
    ∃ ran, p'.executed = p.executed ++ ran ∧ ran.Perm (held p.m_threads ++ p.m_queue) := by
  obtain ⟨mid, hm, hfin, rfl⟩ := softStop_some h
  have hq : mid.m_queue = [] := by
    rcases workers_soft_drains hm hhard (Or.inr hrun) with h | h
    · exact h
    · rw [(all_finished_iff mid).mp hfin] at h; cases h
  obtain ⟨ran, he, hp⟩ := workers_conserves hm
  have hl := workers_workLeft hm
  refine ⟨hq, rfl, ?_, ran, he, ?_⟩
  · have : workLeft mid = 0 := by
      simp [workLeft, hq, load_of_all_finished _ hfin]
    have h0 : workLeft (softStop_lock p) = workLeft p := rfl
    omega
  · simpa [pending, hq, held_of_all_finished _ hfin] using hp

theorem softStop_post_one {p p' : ThreadPool ε ρ} {sched : List Event}
    (h1 : p.m_threads.length = 1) (hrun : someRunning p = true) (hhard : p.m_stopflag = false)
    (h : softStop sched p = some p') :
    p'.executed = p.executed ++ held p.m_threads ++ p.m_queue := by
  obtain ⟨mid, hm, hfin, rfl⟩ := softStop_some h
  have hf := workers_fifo hm h1
  have hq0 : mid.m_queue = [] := by
    rcases workers_soft_drains hm hhard (Or.inr hrun) with h | h
    · exact h
    · rw [(all_finished_iff mid).mp hfin] at h; cases h
  simpa [pending, hq0, held_of_all_finished _ hfin, softStop_lock, List.append_assoc] using hf

theorem stop_post {p p' : ThreadPool ε ρ} {sched : List Event} (h : stop sched p = some p') :
    p'.m_threads = [] ∧ p'.m_stopflag = true ∧ numThreads p' = numThreads p ∧
    p'.m_queue = p.m_queue ∧
    ∃ ran, p'.executed = p.executed ++ ran ∧ ran.Perm (held p.m_threads) := by
  obtain ⟨mid, hm, hfin, rfl⟩ := stop_some h
  obtain ⟨f1, -, f3, -, -⟩ := workers_frame hm
  have hq : mid.m_queue = p.m_queue :=
    workers_hard_queue (p := stop_lock p) hm rfl
  obtain ⟨ran, he, hp⟩ := workers_conserves hm
  refine ⟨rfl, f1, f3, hq, ran, he, ?_⟩
  have hp' : (ran ++ [] ++ p.m_queue).Perm (held p.m_threads ++ p.m_queue) := by
    simpa [pending, hq, held_of_all_finished _ hfin, stop_lock] using hp
  simpa using (List.perm_append_right_iff p.m_queue).mp hp'

/-- Re-initialisation within the range of the loop counter. After `stop` has
returned, `init(n)` with `1 ≤ n < UINT_MOD` and fuel above `n` returns true, clears
both flags, records `n`, creates `n` waiting workers and leaves the queue alone; a
following `softStop` returns, and when it has, the leftover queue has been executed,
each entry once, for `n = 1` in queue order. -/
theorem reinit_within_counter_range (p p1 : ThreadPool ε ρ) (sched : List Event)
    (n fuel : Nat) (hstop : stop sched p = some p1) (hn1 : 1 ≤ n) (hn : n < UINT_MOD)
    (hf : n < fuel) :
    ∃ p2, init fuel n p1 = some (true, p2) ∧
      p2.m_stopflag = false ∧ p2.m_stopflag_soft = false ∧ numThreads p2 = n ∧
      p2.m_threads = List.replicate n Thread.waiting ∧ p2.m_queue = p1.m_queue ∧
      (∃ sched2 p3, softStop sched2 p2 = some p3) ∧
      (∀ sched2 p3, softStop sched2 p2 = some p3 →
        p3.m_queue = [] ∧ p3.m_threads = [] ∧
        (∃ ran, p3.executed = p1.executed ++ ran ∧ ran.Perm p1.m_queue) ∧
        (n = 1 → p3.executed = p1.executed ++ p1.m_queue)) := by
  obtain ⟨hnil, -, -, -, -⟩ := stop_post hstop
  refine ⟨_, init_idle_returns fuel n p1 hnil hn hf, rfl, rfl, rfl, rfl, rfl,
    softStop_returns _, ?_⟩
  intro sched2 p3 h3
  obtain ⟨j, rfl⟩ : ∃ j, n = j + 1 := ⟨n - 1, by omega⟩
  have hrun : someRunning ({ p1 with
      m_stopflag := false
      m_stopflag_soft := false
      m_numthreads := j + 1
      m_threads := List.replicate (j + 1) Thread.waiting } : ThreadPool ε ρ) = true := by
    simp [someRunning, List.replicate_succ, Thread.isFinished]
  obtain ⟨a1, a2, -, ran, a3, a4⟩ := softStop_post hrun rfl h3
  refine ⟨a1, a2, ⟨ran, a3, ?_⟩, ?_⟩
  · simpa [held_replicate_waiting] using a4
  · intro hj
    have hj0 : j = 0 := by omega
    subst hj0
    have := softStop_post_one (by simp) hrun rfl h3
    simpa [held, Thread.task?] using this

/-! ## A soft stop amid submissions -/

theorem drain_refl (s : ThreadPool ε ρ) : Drain s s :=
  ⟨[], [], [], by simp, by simp, by simp, by simp, rfl, fun h => Or.inr h⟩

theorem drain_trans {s m t : ThreadPool ε ρ} (h1 : Drain s m) (h2 : Drain m t) : Drain s t := by
  obtain ⟨a1, r1, d1, hs1, he1, hp1, hq1, hf1, hk1⟩ := h1
  obtain ⟨a2, r2, d2, hs2, he2, hp2, hq2, hf2, hk2⟩ := h2
  refine ⟨a1 ++ a2, r1 ++ r2, d1 ++ d2, by rw [hs2, hs1, List.append_assoc],
    by rw [he2, he1, List.append_assoc], ?_, ?_, hf2.trans hf1, ?_⟩
  · have e1 : (r1 ++ r2 ++ held t.m_threads).Perm (r1 ++ (held m.m_threads ++ d2)) := by
      rw [List.append_assoc]; exact List.Perm.append_left r1 hp2
    have e2 : (r1 ++ (held m.m_threads ++ d2)).Perm (held s.m_threads ++ d1 ++ d2) := by
      rw [← List.append_assoc]; exact List.Perm.append_right d2 hp1
    simpa [List.append_assoc] using e1.trans e2
  · rw [List.append_assoc, hq2, ← List.append_assoc, hq1, List.append_assoc]
  · intro hr
    have hlen1 := congrArg List.length hq1
    simp only [List.length_append] at hlen1 ⊢
    rcases hk1 hr with h | h
    · left; omega
    · rcases hk2 h with h' | h'
      · left; omega
      · right; exact h'

theorem drain_effect {s s' : ThreadPool ε ρ} (h : Effect s s') (hhard : s.m_stopflag = false) :
    Drain s s' := by
  cases h with
  | exit l r h1 _ hx =>
    refine ⟨[], [], [], by simp, by simp, ?_, by simp, rfl, fun _ => Or.inl ?_⟩
    · simp [h1, held, Thread.task?]
    · simp [exitCondition, hhard] at hx
      simp [hx.2]
  | dequeue l r task rest h1 _ _ hq =>
    refine ⟨[], [], [task], by simp, by simp, ?_, by simp [hq], rfl,
      fun _ => Or.inr (someRunning_mid l r (Thread.running task) rfl _ rfl)⟩
    simp only [h1, held_append, List.nil_append]
    simp only [held, List.filterMap_cons, Thread.task?, List.append_assoc]
    refine List.Perm.append_left _ ?_
    have hc : ([task] ++ List.filterMap Thread.task? r).Perm
        (List.filterMap Thread.task? r ++ [task]) := List.perm_append_comm
    simpa using hc
  | execute l r task h1 =>
    refine ⟨[], [task], [], by simp, rfl, ?_, by simp, rfl,
      fun _ => Or.inr (someRunning_mid l r Thread.waiting rfl _ rfl)⟩
    simp only [h1, held_append, List.append_nil]
    simp only [held, List.filterMap_cons, Thread.task?]
    have hc : (task :: (List.filterMap Thread.task? l ++ List.filterMap Thread.task? r)).Perm
        (List.filterMap Thread.task? l ++ task :: List.filterMap Thread.task? r) :=
      List.perm_middle.symm
    simpa using hc

theorem drain_step {a : Action ε ρ} {s s' : ThreadPool ε ρ} (h : step a s = some s')
    (ha : a.duringStop = true) (hhard : s.m_stopflag = false) : Drain s s' := by
  cases a with
  | enqueue bound =>
    simp only [step, Option.some.injEq] at h
    subst h
    exact ⟨[⟨s.shared.length, fun _ => bound ()⟩], [], [], rfl, by simp [enqueue],
      by simp [enqueue], by simp [enqueue], rfl, fun hr => Or.inr hr⟩
  | init fuel n => cases ha
  | stop_lock => cases ha
  | softStop_lock => cases ha
  | clearThreads => cases ha
  | worker e => exact drain_effect (effect_of_event h) hhard

theorem drain_run {actions : List (Action ε ρ)} {s s' : ThreadPool ε ρ}
    (h : run actions s = some s') (ha : ∀ a ∈ actions, Action.duringStop a = true)
    (hhard : s.m_stopflag = false) : Drain s s' := by
  induction actions generalizing s with
  | nil => simp [run] at h; subst h; exact drain_refl s
  | cons a rest ih =>
    obtain ⟨m, hm, hr⟩ := run_cons_some h
    have h1 := drain_step hm (ha a (List.mem_cons_self _ _)) hhard
    have hm' : m.m_stopflag = false := by
      obtain ⟨_, _, _, _, _, _, _, hf, _⟩ := h1
      exact hf.trans hhard
    exact drain_trans h1 (ih hr (fun b hb => ha b (List.mem_cons_of_mem _ hb)) hm')

theorem run_workers (sched : List Event) (p : ThreadPool ε ρ) :
    run (sched.map Action.worker) p = workers sched p := by
  induction sched generalizing p with
  | nil => rfl
  | cons e s ih =>
    simp only [List.map_cons, run, workers, step]
    cases threadFunction e p with
    | none => rfl
    | some q => simpa using ih q

theorem softStopAmid_some {actions : List (Action ε ρ)} {p p' : ThreadPool ε ρ}
    (h : softStopAmid actions p = some p') :
    ∃ mid, run actions (softStop_lock p) = some mid ∧
      mid.m_threads.all Thread.isFinished = true ∧ p' = { mid with m_threads := [] } := by
  simp only [softStopAmid, Option.bind_eq_some] at h
  obtain ⟨mid, hm, hc⟩ := h
  exact ⟨mid, hm, clearThreads_some hc⟩

theorem softStopAmid_post {p p' : ThreadPool ε ρ} {actions : List (Action ε ρ)}
    (hrun : someRunning p = true) (hhard : p.m_stopflag = false)
    (ha : ∀ a ∈ actions, Action.duringStop a = true)
    (h : softStopAmid actions p = some p') :
    p'.m_threads = [] ∧ ∃ early ran, p'.submitted = p.submitted ++ (early ++ p'.m_queue) ∧
      p'.executed = p.executed ++ ran ∧
      ran.Perm (held p.m_threads ++ p.m_queue ++ early) := by
  obtain ⟨mid, hm, hfin, rfl⟩ := softStopAmid_some h
  obtain ⟨added, ran, deq, hs, he, hp, hq, -, hk⟩ := drain_run hm ha hhard
  have hnot : someRunning mid = false := (all_finished_iff mid).mp hfin
  have hlen : p.m_queue.length ≤ deq.length := by
    rcases hk hrun with h | h
    · exact h
    · rw [hnot] at h; cases h
  have hheld := held_of_all_finished _ hfin
  rw [hheld, List.append_nil] at hp
  refine ⟨rfl, ?_⟩
  rcases List.append_eq_append_iff.mp hq with ⟨a', h1, h2⟩ | ⟨c', h1, h2⟩
  · have hlen' := congrArg List.length h1
    simp only [List.length_append] at hlen'
    have ha' : a' = [] := List.length_eq_zero.mp (by
      have e : (softStop_lock p).m_queue.length = p.m_queue.length := rfl
      omega)
    subst ha'
    simp only [List.append_nil, List.nil_append] at h1 h2
    refine ⟨[], ran, ?_, he, ?_⟩
    · simpa [h2] using hs
    · have e : (softStop_lock p).m_queue = p.m_queue := rfl
      rw [← h1] at hp
      simpa [e, softStop_lock] using hp
  · refine ⟨c', ran, ?_, he, ?_⟩
    · rw [hs, h2]; rfl
    · rw [h1] at hp
      simpa [softStop_lock, List.append_assoc] using hp

/-! ## The claims -/

/-- C1 fails when another thread submits during the call: on the constructed
one-worker pool `softStop` sets the flag, the worker sees the empty queue and exits,
an `enqueue` lands, and the join returns with that task queued and unexecuted. -/
theorem softStop_returns_with_late_submission :
    someRunning startPool = true ∧ startPool.m_stopflag = false ∧
    softStopAmid [Action.worker (Event.lock 0), Action.enqueue (fun _ => Except.ok 7)]
      startPool = some lateSubmitPool ∧
    run [Action.softStop_lock, Action.worker (Event.lock 0),
      Action.enqueue (fun _ => Except.ok 7), Action.clearThreads] startPool
      = some lateSubmitPool ∧
    lateSubmitPool.m_threads = [] ∧ lateSubmitPool.m_queue = [task7] ∧
    lateSubmitPool.m_queue ≠ [] ∧ lateSubmitPool.executed = [] :=
  ⟨rfl, rfl, rfl, rfl, rfl, rfl, List.cons_ne_nil _ _, rfl⟩

/-- C1, amended for submissions during the call. For every pool with a thread still
running and the hard-stop flag clear, and every queue: `softStop` (and the
destructor, which is `softStop`) returns under some schedule. Whenever it has
returned, with any submissions of other threads interleaved, the thread collection
is empty, and the tasks executed meanwhile are exactly the tasks held or queued when
the flag was set together with the submissions that came early enough, each once;
the queue holds exactly the later submissions. With no submission during the call
the queue is empty on return and the schedule has `workLeft p` events, and no
schedule of the workers is longer. Over single events: a worker that exits while
only the soft flag is set does so in a state whose queue is empty. -/
theorem softStop_drains_amid_submissions (p : ThreadPool ε ρ) (hrun : someRunning p = true)
    (hhard : p.m_stopflag = false) :
    (∃ sched p', softStop sched p = some p') ∧
    (∀ sched, softStopAmid (sched.map Action.worker) p = softStop sched p ∧
      dtor sched p = softStop sched p) ∧
    (∀ actions p', (∀ a ∈ actions, Action.duringStop a = true) →
      softStopAmid actions p = some p' →
      p'.m_threads = [] ∧
      ∃ early ran, p'.submitted = p.submitted ++ (early ++ p'.m_queue) ∧
        p'.executed = p.executed ++ ran ∧
        ran.Perm (held p.m_threads ++ p.m_queue ++ early)) ∧
    (∀ sched p', softStop sched p = some p' →
      p'.m_queue = [] ∧ p'.m_threads = [] ∧ sched.length = workLeft p ∧
      ∃ ran, p'.executed = p.executed ++ ran ∧ ran.Perm (held p.m_threads ++ p.m_queue)) ∧
    (∀ sched mid, workers sched (softStop_lock p) = some mid → sched.length ≤ workLeft p) ∧
    (∀ (q q' : ThreadPool ε ρ) (i : Nat), q.m_stopflag = false → q.m_stopflag_soft = true →
      threadFunction_lock i q = some q' → q'.m_threads[i]? = some Thread.finished →
      q.m_queue = []) := by
  refine ⟨softStop_returns p, fun sched => ⟨?_, rfl⟩,
    fun actions p' ha h => softStopAmid_post hrun hhard ha h,
    fun sched p' => softStop_post hrun hhard, ?_, ?_⟩
  · simp only [softStopAmid, softStop, run_workers]
  · intro sched mid hm
    have hl := workers_workLeft hm
    have h0 : workLeft (softStop_lock p) = workLeft p := rfl
    omega
  · intro q q' i hh hs hl hfin
    have hx := lock_exit_iff hl hfin
    simp [exitCondition, hh, hs] at hx
    simpa using hx

/-- Instance of amended C1: on the one-worker pool with one queued task a second task
is submitted right after the flag is set; the worker runs both and exits. -/
theorem softStop_drains_amid_submissions_witness :
    someRunning livePool = true ∧ livePool.m_stopflag = false ∧
    softStopAmid [Action.enqueue (fun _ => Except.ok 8),
      Action.worker (Event.lock 0), Action.worker (Event.task 0),
      Action.worker (Event.lock 0), Action.worker (Event.task 0),
      Action.worker (Event.lock 0)] livePool = some drainedAmidPool ∧
    (drainedAmidPool.m_threads = [] ∧
      ∃ early ran, drainedAmidPool.submitted =
          livePool.submitted ++ (early ++ drainedAmidPool.m_queue) ∧
        drainedAmidPool.executed = livePool.executed ++ ran ∧
        ran.Perm (held livePool.m_threads ++ livePool.m_queue ++ early)) :=
  ⟨rfl, rfl, rfl,
    (softStop_drains_amid_submissions livePool rfl rfl).2.2.1
      [Action.enqueue (fun _ => Except.ok 8),
        Action.worker (Event.lock 0), Action.worker (Event.task 0),
        Action.worker (Event.lock 0), Action.worker (Event.task 0),
        Action.worker (Event.lock 0)] drainedAmidPool
      (by
        intro a ha
        simp only [List.mem_cons, List.mem_singleton, List.not_mem_nil, or_false] at ha
        rcases ha with rfl | rfl | rfl | rfl | rfl | rfl <;> rfl)
      rfl⟩

/-- C3, at the input where the code departs from it: after `stop` has returned with
one task left over, `init(4294967296)` does not return, whatever the fuel: the
`unsigned int` counter wraps to 0 before it reaches `numthreads`. -/
theorem reinit_beyond_counter_range_never_returns :
    stop [Event.lock 0] livePool = some abandonedPool ∧
    ∀ fuel, init fuel 4294967296 abandonedPool = none :=
  ⟨rfl, fun fuel => init_idle_diverges fuel 4294967296 abandonedPool rfl (by decide)⟩

/-- C4. `init` is rejected atomically on a live pool: for every pool, every `n` and
every fuel, `init` returns false exactly when the thread collection is non-empty at
the call, and then the state it leaves is the state it found. -/
theorem init_rejected_atomically (p : ThreadPool ε ρ) (numthreads fuel : Nat) :
    ((init fuel numthreads p).map Prod.fst = some false ↔ p.m_threads ≠ []) ∧
    (p.m_threads ≠ [] → init fuel numthreads p = some (false, p)) := by
  refine ⟨⟨?_, ?_⟩, init_live fuel numthreads p⟩
  · intro h hnil
    rcases init_idle_cases fuel numthreads p hnil with h0 | ⟨k, hk⟩
    · simp [h0] at h
    · simp [hk] at h
  · intro h
    simp [init_live fuel numthreads p h]

/-- Instance of C4: `init(5)` on the running one-worker pool. -/
theorem init_rejected_atomically_witness :
    livePool.m_threads ≠ [] ∧ init 0 5 livePool = some (false, livePool) :=
  ⟨by simp [livePool], (init_rejected_atomically livePool 5 0).2 (by simp [livePool])⟩

/-- C5 fails for `n = 0`: on an idle pool `init(0)` succeeds and creates no thread,
so the following `init(3)` returns true and `numThreads` becomes 3. -/
theorem double_init_after_zero_accepted :
    (init 1 0 (fresh 0 : ThreadPool Unit Nat)).bind
      (fun r => (init 4 3 r.2).map (fun r2 => (r2.1, numThreads r2.2))) = some (true, 3) := by
  decide

/-- C5, amended to `n ≥ 1`. From an idle pool, `init(n)` returns (for `n` below
`UINT_MOD`, with fuel above `n`), and once it has returned, with true, a following
`init(m)` returns false and leaves the state, in particular `numThreads = n`,
unchanged; the same after construction with `n` threads. -/
theorem double_init_rejected (p : ThreadPool ε ρ) (n m : Nat) (hidle : p.m_threads = [])
    (hn : 1 ≤ n) :
    (n < UINT_MOD → ∀ fuel, n < fuel → ∃ p1, init fuel n p = some (true, p1)) ∧
    (∀ fuel b p1, init fuel n p = some (b, p1) →
      b = true ∧ numThreads p1 = n ∧
      ∀ fuel2, init fuel2 m p1 = some (false, p1) ∧ numThreads p1 = n) ∧
    (∀ fuel (p1 : ThreadPool ε ρ), ctor fuel n = some p1 →
      ∀ fuel2, init fuel2 m p1 = some (false, p1) ∧ numThreads p1 = n) := by
  have key : ∀ (q : ThreadPool ε ρ), q.m_threads = [] → ∀ fuel b p1,
      init fuel n q = some (b, p1) →
      b = true ∧ numThreads p1 = n ∧
      ∀ fuel2, init fuel2 m p1 = some (false, p1) ∧ numThreads p1 = n := by
    intro q hq fuel b p1 h
    have hlt : n < UINT_MOD := by
      rcases Nat.lt_or_ge n UINT_MOD with hlt | hge
      · exact hlt
      · rw [init_idle_diverges fuel n q hq hge] at h; cases h
    obtain ⟨hb, k, hk, rfl⟩ := init_idle_result fuel n q b p1 hq h
    have hk' := hk hlt
    subst hk'
    refine ⟨hb, rfl, fun fuel2 => ⟨init_live fuel2 m _ ?_, rfl⟩⟩
    obtain ⟨j, rfl⟩ : ∃ j, k = j + 1 := ⟨k - 1, by omega⟩
    simp [List.replicate_succ]
  refine ⟨?_, key p hidle, ?_⟩
  · intro hlt fuel hf
    exact ⟨_, init_idle_returns fuel n p hidle hlt hf⟩
  · intro fuel p1 h
    simp only [ctor, Option.map_eq_some'] at h
    obtain ⟨⟨b, q⟩, hq, rfl⟩ := h
    exact (key (fresh n) rfl fuel b q hq).2.2

/-- Instance of amended C5: `init(1)` then `init(3)` on a fresh object. -/
theorem double_init_rejected_witness :
    (fresh 1 : ThreadPool Unit Nat).m_threads = [] ∧ 1 ≤ 1 ∧
    init 2 1 (fresh 1 : ThreadPool Unit Nat) = some (true, startPool) ∧
    ∀ fuel2, init fuel2 3 startPool = some (false, startPool) ∧ numThreads startPool = 1 :=
  ⟨rfl, Nat.le_refl 1, rfl,
    ((double_init_rejected (fresh 1 : ThreadPool Unit Nat) 1 3 rfl (Nat.le_refl 1)).2.1
      2 true startPool rfl).2.2⟩

/-- C6. Outcome delivery through the handle. For every reachable pool, callable and
arguments: `enqueue` leaves the future not ready and executes nothing, and in every
later state in which the task it created has been executed, reading the future
yields exactly the outcome of the call, value or failure; for `f(x) = x*2` that is
`2x`. Whatever its outcome, running a held task leaves the worker at the top of its
loop, and with the hard flag clear and a task queued the same worker dequeues and
executes that task next. -/
theorem outcome_through_handle :
    (∀ (ε ρ α : Type) (p : ThreadPool ε ρ) (t : α → Except ε ρ) (args : α), Reachable p →
      futureGet (enqueue p t args).1 (enqueue p t args).2 = none ∧
      (enqueue p t args).1.executed = p.executed ∧
      ∀ actions p', run actions (enqueue p t args).1 = some p' →
        (⟨p.shared.length, fun _ => t args⟩ : Task ε ρ) ∈ p'.executed →
        futureGet p' (enqueue p t args).2 = some (t args)) ∧
    (∀ (ε : Type) (p : ThreadPool ε Int) (x : Int), Reachable p →
      ∀ actions p', run actions (enqueue p (fun y => Except.ok (y * 2)) x).1 = some p' →
        (⟨p.shared.length, fun _ => Except.ok (x * 2)⟩ : Task ε Int) ∈ p'.executed →
        futureGet p' (enqueue p (fun y => Except.ok (y * 2)) x).2 = some (Except.ok (2 * x))) ∧
    (∀ (ε ρ : Type) (p : ThreadPool ε ρ) (i : Nat) (task : Task ε ρ),
      p.m_threads[i]? = some (Thread.running task) →
      ∃ q1, threadFunction_task i p = some q1 ∧
        q1.m_threads[i]? = some Thread.waiting ∧ q1.m_queue = p.m_queue ∧
        q1.executed = p.executed ++ [task] ∧
        (p.m_stopflag = false → ∀ next rest, p.m_queue = next :: rest →
          ∃ q2, threadFunction_lock i q1 = some q2 ∧
            q2.m_threads[i]? = some (Thread.running next) ∧
            ∃ q3, threadFunction_task i q2 = some q3 ∧
              q3.executed = p.executed ++ [task, next])) := by
  have general : ∀ (ε ρ α : Type) (p : ThreadPool ε ρ) (t : α → Except ε ρ) (args : α),
      Reachable p → ∀ actions p', run actions (enqueue p t args).1 = some p' →
        (⟨p.shared.length, fun _ => t args⟩ : Task ε ρ) ∈ p'.executed →
        futureGet p' (enqueue p t args).2 = some (t args) := by
    intro ε ρ α p t args hreach actions p' hrun hmem
    have hstep : step (Action.enqueue (fun _ => t args)) p = some (enqueue p t args).1 := rfl
    have hinv := exactlyOnce_reachable hreach
    have hd := delivered_run hrun (exactlyOnce_step hstep hinv)
      (delivered_step hstep hinv (delivered_reachable hreach))
    exact hd _ hmem
  refine ⟨?_, ?_, ?_⟩
  · intro ε ρ α p t args hreach
    refine ⟨?_, rfl, general ε ρ α p t args hreach⟩
    simp [futureGet, enqueue, List.getD]
  · intro ε p x hreach actions p' hrun hmem
    have := general ε Int Int p (fun y => Except.ok (y * 2)) x hreach actions p' hrun hmem
    rw [this, Int.mul_comm]
  · intro ε ρ p i task hi
    exact worker_survives p i task hi

/-- Instance of C6: `enqueue(addSix, 1)` on the constructed one-worker pool, then the
worker dequeues and runs the task: the future reads 7. And the worker holding the
failing task survives it. -/
theorem outcome_through_handle_witness :
    Reachable startPool ∧
    run [Action.worker (Event.lock 0), Action.worker (Event.task 0)]
      (enqueue startPool addSix 1).1 = some servedPool ∧
    futureGet servedPool (enqueue startPool addSix 1).2 = some (addSix 1) ∧
    failingPool.m_threads[0]? = some (Thread.running failingTask) ∧
    ∃ q1, threadFunction_task 0 failingPool = some q1 ∧
      q1.m_threads[0]? = some Thread.waiting ∧ q1.m_queue = failingPool.m_queue ∧
      q1.executed = failingPool.executed ++ [failingTask] ∧
      (failingPool.m_stopflag = false → ∀ next rest, failingPool.m_queue = next :: rest →
        ∃ q2, threadFunction_lock 0 q1 = some q2 ∧
          q2.m_threads[0]? = some (Thread.running next) ∧
          ∃ q3, threadFunction_task 0 q2 = some q3 ∧
            q3.executed = failingPool.executed ++ [failingTask, next]) :=
  ⟨⟨2, 1, [], rfl⟩, rfl,
    (outcome_through_handle.1 Unit Nat Nat startPool addSix 1 ⟨2, 1, [], rfl⟩).2.2
      [Action.worker (Event.lock 0), Action.worker (Event.task 0)] servedPool rfl
      (List.mem_singleton.mpr rfl),
    rfl, outcome_through_handle.2.2 Nat Nat failingPool 0 failingTask rfl⟩

/-- C7. FIFO with a single worker. From any pool with exactly one thread, along any
run of submissions, worker events and the soft-stop flag: the sequence executed,
then held, then queued is the one before the run followed by the tasks submitted
during it, in submission order; at most one task is held at a time; and with the
hard flag clear and the worker running, a soft stop returns having executed the
held task and the queue in exactly that order. -/
theorem fifo_single_worker (p p' : ThreadPool ε ρ) (actions : List (Action ε ρ))
    (h1 : p.m_threads.length = 1) (hk : ∀ a ∈ actions, Action.keepsThreads a = true)
    (hrun : run actions p = some p') :
    (∃ added, p'.submitted = p.submitted ++ added ∧
      p'.executed ++ held p'.m_threads ++ p'.m_queue =
        p.executed ++ held p.m_threads ++ p.m_queue ++ added) ∧
    (held p'.m_threads).length ≤ 1 ∧
    (∀ sched q, p'.m_stopflag = false → someRunning p' = true → softStop sched p' = some q →
      q.executed = p'.executed ++ held p'.m_threads ++ p'.m_queue) := by
  have key : p'.m_threads.length = 1 ∧ ∃ added, p'.submitted = p.submitted ++ added ∧
      p'.executed ++ pending p' = p.executed ++ pending p ++ added := by
    induction actions generalizing p with
    | nil => simp [run] at hrun; subst hrun; exact ⟨h1, [], by simp, by simp⟩
    | cons a rest ih =>
      obtain ⟨m, hm, hr⟩ := run_cons_some hrun
      obtain ⟨hlen, add1, hs1, he1⟩ := fifo_step hm (hk a (List.mem_cons_self _ _)) h1
      obtain ⟨hlen', add2, hs2, he2⟩ :=
        ih m hlen (fun b hb => hk b (List.mem_cons_of_mem _ hb)) hr
      exact ⟨hlen', add1 ++ add2, by rw [hs2, hs1, List.append_assoc],
        by rw [he2, he1, List.append_assoc]⟩
  obtain ⟨hlen, added, hs, he⟩ := key
  refine ⟨⟨added, hs, by simpa [pending, List.append_assoc] using he⟩, ?_, ?_⟩
  · have := held_length_le p'.m_threads
    omega
  · intro sched q hhard halive hq
    exact softStop_post_one hlen halive hhard hq

/-- Instance of C7: two submissions to the constructed one-worker pool, the first
dequeued and run. -/
theorem fifo_single_worker_witness :
    startPool.m_threads.length = 1 ∧
    run [Action.enqueue (fun _ => Except.ok 7), Action.enqueue (fun _ => Except.ok 8),
      Action.worker (Event.lock 0), Action.worker (Event.task 0)] startPool = some fifoPool ∧
    (∃ added, fifoPool.submitted = startPool.submitted ++ added ∧
      fifoPool.executed ++ held fifoPool.m_threads ++ fifoPool.m_queue =
        startPool.executed ++ held startPool.m_threads ++ startPool.m_queue ++ added) :=
  ⟨rfl, rfl,
    (fifo_single_worker startPool fifoPool
      [Action.enqueue (fun _ => Except.ok 7), Action.enqueue (fun _ => Except.ok 8),
        Action.worker (Event.lock 0), Action.worker (Event.task 0)] rfl
      (by
        intro a ha
        simp only [List.mem_cons, List.mem_singleton, List.not_mem_nil, or_false] at ha
        rcases ha with rfl | rfl | rfl | rfl <;> rfl)
      rfl).1⟩

/-- C8. Exactly-once execution as an invariant: in every state reachable from a
constructed pool by submissions, `init`, the two stop flags, the join of
`clearThreads` and worker events, the tasks executed, held and queued are together
a rearrangement of the tasks submitted, and no two of them share an identity, so
each submitted task is in exactly one of the three places, once. -/
theorem exactly_once (p : ThreadPool ε ρ) (h : Reachable p) :
    (p.executed ++ held p.m_threads ++ p.m_queue).Perm p.submitted ∧
    ((p.executed ++ held p.m_threads ++ p.m_queue).map Task.state).Nodup ∧
    (p.submitted.map Task.state).Nodup := by
  have hinv := exactlyOnce_reachable h
  refine ⟨?_, ?_, ?_⟩
  · simpa [pending, List.append_assoc] using hinv.1
  · simpa [pending, List.append_assoc] using exactlyOnce_nodup hinv
  · rw [hinv.2]; exact List.nodup_range _

/-- Instance of C8: the one-worker pool after one submission. -/
theorem exactly_once_witness :
    Reachable livePool ∧
    (livePool.executed ++ held livePool.m_threads ++ livePool.m_queue).Perm
      livePool.submitted ∧
    ((livePool.executed ++ held livePool.m_threads ++ livePool.m_queue).map Task.state).Nodup ∧
    (livePool.submitted.map Task.state).Nodup :=
  ⟨⟨2, 1, [Action.enqueue (fun _ => Except.ok 7)], rfl⟩,
    exactly_once livePool ⟨2, 1, [Action.enqueue (fun _ => Except.ok 7)], rfl⟩⟩

/-- C9. `enqueue` is accepted in every state and touches only the queue tail: it
appends the new task after the earlier entries and leaves both stop flags,
`numThreads`, the thread collection and the execution history as they were. On a
pool without threads, along any run without a call of `init`, the thread collection
stays empty, nothing is executed and the task stays in the queue behind the earlier
entries. -/
theorem enqueue_frame {α : Type} (p : ThreadPool ε ρ) (t : α → Except ε ρ) (args : α) :
    (enqueue p t args).1.m_queue = p.m_queue ++ [⟨p.shared.length, fun _ => t args⟩] ∧
    (enqueue p t args).1.m_stopflag = p.m_stopflag ∧
    (enqueue p t args).1.m_stopflag_soft = p.m_stopflag_soft ∧
    numThreads (enqueue p t args).1 = numThreads p ∧
    (enqueue p t args).1.m_threads = p.m_threads ∧
    (enqueue p t args).1.executed = p.executed ∧
    (p.m_threads = [] → ∀ actions p', (∀ a ∈ actions, Action.isInit a = false) →
      run actions (enqueue p t args).1 = some p' →
      p'.m_threads = [] ∧ p'.executed = p.executed ∧
      ∃ later, p'.m_queue = p.m_queue ++ ⟨p.shared.length, fun _ => t args⟩ :: later) := by
  refine ⟨rfl, rfl, rfl, rfl, rfl, rfl, ?_⟩
  intro hnil actions p' hi hr
  obtain ⟨h1, h2, later, h3⟩ := idle_run hr hi hnil
  exact ⟨h1, h2, later, by rw [h3]; simp [enqueue]⟩

/-- Instance of C9: `enqueue(addSix, 2)` on the hard-stopped pool, followed by another
`stop`. -/
theorem enqueue_frame_witness :
    abandonedPool.m_threads = [] ∧
    run [Action.stop_lock, Action.clearThreads] (enqueue abandonedPool addSix 2).1
      = some requeuedPool ∧
    (requeuedPool.m_threads = [] ∧ requeuedPool.executed = abandonedPool.executed ∧
      ∃ later, requeuedPool.m_queue =
        abandonedPool.m_queue ++ ⟨abandonedPool.shared.length, fun _ => addSix 2⟩ :: later) :=
  ⟨rfl, rfl,
    (enqueue_frame abandonedPool addSix 2).2.2.2.2.2.2 rfl
      [Action.stop_lock, Action.clearThreads] requeuedPool
      (by
        intro a ha
        simp only [List.mem_cons, List.mem_singleton, List.not_mem_nil, or_false] at ha
        rcases ha with rfl | rfl <;> rfl)
      rfl⟩

/-- C10. The worker never dequeues from an empty queue. For a waiting worker in a
state where the wait predicate holds: the exit condition is the hard flag, or the
soft flag with an empty queue; when it holds the worker exits; when it does not, the
queue is non-empty, `front` and `pop` are defined, and the worker takes the head. -/
theorem worker_never_pops_empty (p : ThreadPool ε ρ) (i : Nat)
    (hi : p.m_threads[i]? = some Thread.waiting) (hw : wakePredicate p = true) :
    (exitCondition p = true ↔
      (p.m_stopflag = true ∨ (p.m_stopflag_soft = true ∧ p.m_queue = []))) ∧
    (exitCondition p = true →
      threadFunction_lock i p = some { p with m_threads := p.m_threads.set i Thread.finished }) ∧
    (exitCondition p = false →
      p.m_queue ≠ [] ∧ ∃ task rest, p.m_queue = task :: rest ∧
        front p.m_queue = some task ∧ pop p.m_queue = some rest ∧
        threadFunction_lock i p = some { p with
          m_queue := rest
          m_threads := p.m_threads.set i (Thread.running task) }) := by
  refine ⟨?_, ?_, ?_⟩
  · simp only [exitCondition, Bool.or_eq_true, Bool.and_eq_true, List.isEmpty_iff]
    tauto
  · intro hx
    simp [threadFunction_lock, hi, hw, hx]
  · intro hx
    have hq := queue_nonempty_of_wake hw hx
    refine ⟨hq, ?_⟩
    cases hqq : p.m_queue with
    | nil => exact absurd hqq hq
    | cons task rest =>
      refine ⟨task, rest, rfl, rfl, rfl, ?_⟩
      simp [threadFunction_lock, hi, hw, hx, hqq, front, pop]

/-- Instance of C10: the idle worker of the one-worker pool with one queued task. -/
theorem worker_never_pops_empty_witness :
    livePool.m_threads[0]? = some Thread.waiting ∧ wakePredicate livePool = true ∧
    exitCondition livePool = false ∧ livePool.m_queue ≠ [] ∧
    ∃ task rest, livePool.m_queue = task :: rest ∧
      front livePool.m_queue = some task ∧ pop livePool.m_queue = some rest ∧
      threadFunction_lock 0 livePool = some { livePool with
        m_queue := rest
        m_threads := livePool.m_threads.set 0 (Thread.running task) } :=
  ⟨rfl, rfl, rfl, (worker_never_pops_empty livePool 0 rfl rfl).2.2 rfl⟩

end ThreadPoolModel
